import Mathlib

/-!
Verification of the hierarchical chunking and retrieval pipeline of
`edge-ai-infra` (gateway/services/rag).  The Python source is embedded
shallowly: word sequences are `List α` (the chunker only ever acts on the
result of `str.split()` and re-joins with single spaces, so a text is
represented by its word list), Python `int` is `Nat` on the non-negative
ranges accepted by validation, fallible or possibly non-terminating code
returns `Option`, and dictionaries with optional keys become structures of
`Option` fields with Python truthiness made explicit.

Floating point note: `int(child_max_tokens * 0.75)` is exactly
`3 * child_max_tokens / 4` in `Nat` because 0.75 is a dyadic rational, and
`int(max_words * 0.15)` agrees with `max_words * 15 / 100` for every
machine-representable `max_words` (the product of a float below 3/20 with an
integer never rounds past the next integer boundary in double precision),
so the embedding uses the exact rational arithmetic.
-/

namespace EdgeAI

/-! ## Chunk splitter — gateway/services/rag/chunker.py -/

/-- Configuration dataclass `HierarchicalChunkConfig` (chunker.py).
Python ints are modelled as `Nat`; the constructor validation rejects all
non-positive values, see `validConfig`. -/
structure HierarchicalChunkConfig where
  parent_max_tokens : Nat := 1000
  child_max_tokens : Nat := 300
  min_chunk_words : Nat := 30
deriving DecidableEq

/-- `HierarchicalChunkConfig.__post_init__`: the configurations accepted
without a `ValueError` (`min_chunk_words ≥ 0` holds by the `Nat` encoding). -/
def validConfig (cfg : HierarchicalChunkConfig) : Prop :=
  0 < cfg.parent_max_tokens ∧ 0 < cfg.child_max_tokens ∧
    cfg.child_max_tokens < cfg.parent_max_tokens

instance (cfg : HierarchicalChunkConfig) : Decidable (validConfig cfg) := by
  unfold validConfig; infer_instance

/-- `max_words = int(self.config.child_max_tokens * DEFAULT_WORD_TO_TOKEN_RATIO)`
with `DEFAULT_WORD_TO_TOKEN_RATIO = 0.75` (chunker.py line 447). -/
def maxWordsOf (child_max_tokens : Nat) : Nat := 3 * child_max_tokens / 4

/-- `overlap = int(max_words * DEFAULT_OVERLAP_RATIO)` with
`DEFAULT_OVERLAP_RATIO = 0.15` (chunker.py line 448). -/
def overlapOf (max_words : Nat) : Nat := max_words * 15 / 100

/-- The stride the `while` loop of `_token_split` advances by:
`start += max_words - overlap` (chunker.py line 458). -/
def strideOf (child_max_tokens : Nat) : Nat :=
  maxWordsOf child_max_tokens - overlapOf (maxWordsOf child_max_tokens)

/-- The `while start < len(words)` loop of `_token_split` (chunker.py lines
453-459), fuel-indexed: each iteration appends the window
`words[start : min(start + max_words, len(words))]` and advances `start` by
`stride`.  `none` means the loop has not finished within `fuel` iterations;
since the loop variable changes by the same stride every iteration, the loop
terminates at all if and only if it returns `some` for some fuel. -/
def splitLoop (max_words stride : Nat) (words : List α) : Nat → Nat → Option (List (List α))
  | _, 0 => none
  | start, fuel + 1 =>
    if start < words.length then
      match splitLoop max_words stride words (start + stride) fuel with
      | none => none
      | some rest => some ((words.drop start).take max_words :: rest)
    else
      some []

/-- `HierarchicalDocChunker._token_split` (chunker.py lines 433-460) on the
word list of the input text: if the text fits in one window it is returned
unchanged, otherwise the window loop runs.  The fuel `words.length + 1` is
sufficient whenever the stride is positive (`splitLoop_total`), so `none`
models the loop running forever. -/
def token_split (child_max_tokens : Nat) (words : List α) : Option (List (List α)) :=
  let max_words := maxWordsOf child_max_tokens
  if words.length ≤ max_words then some [words]
  else splitLoop max_words (strideOf child_max_tokens) words 0 (words.length + 1)

/-- A child chunk as assembled by `_build_children` (chunker.py lines
413-428), keeping the fields the claims speak about: the running
`chunk_index`, the parent it came from (the parent's position stands in for
the freshly drawn `parent_id` uuid), and the word window of its text. -/
structure ChildChunk (α : Type) where
  chunkIndex : Nat
  parentIdx : Nat
  window : List α
deriving DecidableEq

/-- The inner `for sub_text in sub_texts` loop of `_build_children`
(chunker.py lines 407-429): windows below `min_chunk_words` are skipped,
each emitted child receives the current `child_index`, which is incremented
only on emission.  Returns the emitted children and the updated counter. -/
def emitChildren (min_words pIdx : Nat) : Nat → List (List α) → List (ChildChunk α) × Nat
  | k, [] => ([], k)
  | k, w :: ws =>
    if w.length < min_words then emitChildren min_words pIdx k ws
    else
      let rest := emitChildren min_words pIdx (k + 1) ws
      (⟨k, pIdx, w⟩ :: rest.1, rest.2)

/-- The outer `for parent in parents` loop of `_build_children` (chunker.py
lines 404-429), threading the single `child_index` counter initialised once
before the loop (line 402) through all parents.  `none` propagates a
non-terminating `_token_split`. -/
def buildGo (min_words child_max_tokens : Nat) :
    Nat → Nat → List (List α) → Option (List (ChildChunk α))
  | _, _, [] => some []
  | k, pIdx, p :: ps =>
    match token_split child_max_tokens p with
    | none => none
    | some ws =>
      let e := emitChildren min_words pIdx k ws
      match buildGo min_words child_max_tokens e.2 (pIdx + 1) ps with
      | none => none
      | some rest => some (e.1 ++ rest)

/-- `HierarchicalDocChunker._build_children` (chunker.py lines 381-431) on
parents given as word lists: `child_index = 0` once, then both loops. -/
def build_children (min_words child_max_tokens : Nat)
    (parents : List (List α)) : Option (List (ChildChunk α)) :=
  buildGo min_words child_max_tokens 0 0 parents

/-- Sliding overlapping windows back together: keep the first `stride` words
of every window and the last window whole.  This is the reconstruction the
spec's "slid back together accounting for overlap" describes, since
consecutive windows start `stride` words apart. -/
def glue (stride : Nat) : List (List α) → List α
  | [] => []
  | [w] => w
  | w :: v :: ws => w.take stride ++ glue stride (v :: ws)

/-! ## Chunker lemmas -/

/-- With a positive stride the window loop terminates: fuel exceeding the
number of words left suffices. -/
theorem splitLoop_total (max_words stride : Nat) (words : List α) (hs : 1 ≤ stride) :
    ∀ fuel start, words.length - start < fuel →
      ∃ ws, splitLoop max_words stride words start fuel = some ws := by
  intro fuel
  induction fuel with
  | zero => intro start h; omega
  | succ f ih =>
    intro start h
    by_cases hlt : start < words.length
    · obtain ⟨ws, hws⟩ := ih (start + stride) (by omega)
      exact ⟨(words.drop start).take max_words :: ws, by simp [splitLoop, hlt, hws]⟩
    · exact ⟨[], by simp [splitLoop, hlt]⟩

/-- Any finished run of the window loop, once its windows are slid back
together, yields exactly the words from the loop's starting position on. -/
theorem glue_splitLoop (max_words stride : Nat) (words : List α)
    (h2 : stride ≤ max_words) :
    ∀ fuel start ws, splitLoop max_words stride words start fuel = some ws →
      glue stride ws = words.drop start := by
  intro fuel
  induction fuel with
  | zero => intro start ws h; simp [splitLoop] at h
  | succ f ih =>
    intro start ws h
    by_cases hlt : start < words.length
    · rw [splitLoop, if_pos hlt] at h
      cases hrec : splitLoop max_words stride words (start + stride) f with
      | none => rw [hrec] at h; exact absurd h (by simp)
      | some rest =>
        rw [hrec] at h
        obtain rfl : (words.drop start).take max_words :: rest = ws := by
          simpa using h
        have hrest := ih (start + stride) rest hrec
        cases rest with
        | nil =>
          have hlen : words.length ≤ start + stride := by
            have hnil : words.drop (start + stride) = [] := by
              rw [← hrest]; rfl
            exact List.drop_eq_nil_iff.1 hnil
          show (words.drop start).take max_words = words.drop start
          apply List.take_of_length_le
          rw [List.length_drop]; omega
        | cons v vs =>
          show ((words.drop start).take max_words).take stride ++ glue stride (v :: vs) =
            words.drop start
          rw [hrest, List.take_take, min_eq_left h2, ← List.drop_drop,
            List.take_append_drop]
    · rw [splitLoop, if_neg hlt] at h
      obtain rfl : ([] : List (List α)) = ws := by simpa using h
      show ([] : List α) = words.drop start
      rw [List.drop_eq_nil_iff.2 (by omega)]

/-- Every window the loop returns holds at most `max_words` words. -/
theorem splitLoop_window_le (max_words stride : Nat) (words : List α) :
    ∀ fuel start ws, splitLoop max_words stride words start fuel = some ws →
      ∀ w ∈ ws, w.length ≤ max_words := by
  intro fuel
  induction fuel with
  | zero => intro start ws h; simp [splitLoop] at h
  | succ f ih =>
    intro start ws h
    by_cases hlt : start < words.length
    · rw [splitLoop, if_pos hlt] at h
      cases hrec : splitLoop max_words stride words (start + stride) f with
      | none => rw [hrec] at h; exact absurd h (by simp)
      | some rest =>
        rw [hrec] at h
        obtain rfl : (words.drop start).take max_words :: rest = ws := by simpa using h
        intro w hw
        rcases List.mem_cons.1 hw with rfl | hw
        · exact (words.drop start).length_take_le max_words
        · exact ih (start + stride) rest hrec w hw
    · rw [splitLoop, if_neg hlt] at h
      obtain rfl : ([] : List (List α)) = ws := by simpa using h
      intro w hw
      exact absurd hw (List.not_mem_nil w)

/-- For `max_words ≥ 1` the computed overlap is strictly smaller than the
window, so the stride `max_words - overlap` is at least one word. -/
theorem overlapOf_lt (m : Nat) (hm : 1 ≤ m) : overlapOf m < m := by
  unfold overlapOf; omega

/-- The inner child-emission loop hands out the consecutive indices
`k, k + 1, …` and leaves the counter past the last emitted child. -/
theorem emitChildren_index (min_words pIdx : Nat) :
    ∀ (ws : List (List α)) (k : Nat),
      (emitChildren min_words pIdx k ws).1.map ChildChunk.chunkIndex =
        List.range' k (emitChildren min_words pIdx k ws).1.length ∧
      (emitChildren min_words pIdx k ws).2 =
        k + (emitChildren min_words pIdx k ws).1.length := by
  intro ws
  induction ws with
  | nil => intro k; exact ⟨rfl, rfl⟩
  | cons w ws ih =>
    intro k
    by_cases hw : w.length < min_words
    · simpa [emitChildren, hw] using ih k
    · obtain ⟨ih1, ih2⟩ := ih (k + 1)
      refine ⟨?_, ?_⟩
      · simp only [emitChildren, if_neg hw, List.map_cons, List.length_cons, ih1,
          List.range'_succ]
      · simp only [emitChildren, if_neg hw, List.length_cons, ih2]
        omega

/-- Unfolding equation for `buildGo` on a non-empty parent list. -/
theorem buildGo_cons (min_words child_max_tokens k pIdx : Nat)
    (p : List α) (ps : List (List α)) :
    buildGo min_words child_max_tokens k pIdx (p :: ps) =
      match token_split child_max_tokens p with
      | none => none
      | some ws =>
        match buildGo min_words child_max_tokens
            (emitChildren min_words pIdx k ws).2 (pIdx + 1) ps with
        | none => none
        | some rest => some ((emitChildren min_words pIdx k ws).1 ++ rest) := rfl

/-- The outer parent loop, started at counter `k`, produces children whose
`chunk_index` fields are exactly `k, k + 1, …` in emission order. -/
theorem buildGo_index (min_words child_max_tokens : Nat) :
    ∀ (ps : List (List α)) (k pIdx : Nat) (cs : List (ChildChunk α)),
      buildGo min_words child_max_tokens k pIdx ps = some cs →
      cs.map ChildChunk.chunkIndex = List.range' k cs.length := by
  intro ps
  induction ps with
  | nil =>
    intro k pIdx cs h
    obtain rfl : ([] : List (ChildChunk α)) = cs := Option.some.inj h
    rfl
  | cons p ps ih =>
    intro k pIdx cs h
    rw [buildGo_cons] at h
    cases hts : token_split child_max_tokens p with
    | none => simp only [hts] at h; exact Option.noConfusion h
    | some ws =>
      simp only [hts] at h
      cases hrec : buildGo min_words child_max_tokens
          (emitChildren min_words pIdx k ws).2 (pIdx + 1) ps with
      | none => simp only [hrec] at h; exact Option.noConfusion h
      | some rest =>
        simp only [hrec] at h
        obtain rfl : (emitChildren min_words pIdx k ws).1 ++ rest = cs := Option.some.inj h
        obtain ⟨he1, he2⟩ := emitChildren_index min_words pIdx ws k
        have hr := ih (emitChildren min_words pIdx k ws).2 (pIdx + 1) rest hrec
        rw [List.map_append, he1, hr, he2, List.length_append, List.range'_append_1,
          Nat.add_comm rest.length]

/-! ## Claim theorems for the chunk splitter -/

/-- C1, counterexample: `child_index` is initialised once for the whole
document (chunker.py line 402), not per parent.  With two one-word parents
and `min_chunk_words = 1`, `child_max_tokens = 300`, the only child of the
second parent is emitted with `chunk_index = 1`, not `0`, refuting the claim
that the first child of every parent has `chunk_index 0`. -/
theorem chunk_index_not_scoped_to_parent :
    build_children 1 300 ([[0], [1]] : List (List Nat)) =
      some [⟨0, 0, [0]⟩, ⟨1, 1, [1]⟩] ∧
    ∀ ch ∈ ([⟨0, 0, [0]⟩, ⟨1, 1, [1]⟩] : List (ChildChunk Nat)),
      ch.parentIdx = 1 → ch.chunkIndex = 1 := by
  decide

/-- C1, amended: `chunk_index` is a single document-wide counter — the
children emitted by `_build_children` carry `chunk_index` values
`0, 1, 2, …` in overall emission order across all parents (windows skipped
by the `min_chunk_words` filter do not consume an index), so only the very
first emitted child of the document has `chunk_index 0`. -/
theorem build_children_chunk_index_global (min_words child_max_tokens : Nat)
    (parents : List (List α)) (cs : List (ChildChunk α))
    (h : build_children min_words child_max_tokens parents = some cs) :
    cs.map ChildChunk.chunkIndex = List.range cs.length := by
  rw [List.range_eq_range']
  exact buildGo_index min_words child_max_tokens parents 0 0 cs h

/-- Witness for `build_children_chunk_index_global` at a three-parent
document. -/
theorem build_children_chunk_index_global_witness :
    build_children 2 300 ([[0, 0], [1, 1], [2, 2]] : List (List Nat)) =
      some [⟨0, 0, [0, 0]⟩, ⟨1, 1, [1, 1]⟩, ⟨2, 2, [2, 2]⟩] ∧
    ([⟨0, 0, [0, 0]⟩, ⟨1, 1, [1, 1]⟩, ⟨2, 2, [2, 2]⟩] :
        List (ChildChunk Nat)).map ChildChunk.chunkIndex =
      List.range ([⟨0, 0, [0, 0]⟩, ⟨1, 1, [1, 1]⟩, ⟨2, 2, [2, 2]⟩] :
        List (ChildChunk Nat)).length :=
  ⟨by decide,
    build_children_chunk_index_global 2 300 [[0, 0], [1, 1], [2, 2]]
      [⟨0, 0, [0, 0]⟩, ⟨1, 1, [1, 1]⟩, ⟨2, 2, [2, 2]⟩] (by decide)⟩

/-- C2, counterexample: the claim fails for the children `_build_children`
returns, because a trailing window shorter than `min_chunk_words` is
discarded together with its words.  Valid configuration
`⟨1000, 100, 30⟩` gives `max_words = 75`, `overlap = 11`, stride `64`; a
parent of 84 words (at least `min_chunk_words = 30`) produces windows of 75
and 20 words, the 20-word tail is dropped, and word 83 of the parent occurs
in no surviving child, so no reassembly of the children reconstructs the
parent's word sequence. -/
theorem children_skip_trailing_words :
    validConfig ⟨1000, 100, 30⟩ ∧ 30 ≤ (List.range 84).length ∧
    build_children 30 100 [List.range 84] =
      some [⟨0, 0, (List.range 84).take 75⟩] ∧
    83 ∈ List.range 84 ∧
    ∀ ch ∈ ([⟨0, 0, (List.range 84).take 75⟩] : List (ChildChunk Nat)),
      83 ∉ ch.window := by
  decide

/-- C2, amended: whenever the computed window holds at least one word (so
the stride is positive and the split terminates), the word windows produced
by `_token_split` — before the `min_chunk_words` child filter — slid back
together with the stride reconstruct the parent's original word sequence
with no words skipped. -/
theorem token_split_reconstructs (c : Nat) (words : List α) (hm : 1 ≤ maxWordsOf c) :
    ∃ ws, token_split c words = some ws ∧ glue (strideOf c) ws = words := by
  have hov := overlapOf_lt (maxWordsOf c) hm
  have hs : 1 ≤ strideOf c := by unfold strideOf; omega
  have hsm : strideOf c ≤ maxWordsOf c := by unfold strideOf; omega
  by_cases hle : words.length ≤ maxWordsOf c
  · exact ⟨[words], by simp [token_split, hle], rfl⟩
  · obtain ⟨ws, hws⟩ :=
      splitLoop_total (maxWordsOf c) (strideOf c) words hs (words.length + 1) 0 (by omega)
    refine ⟨ws, by simp [token_split, hle, hws], ?_⟩
    simpa using
      glue_splitLoop (maxWordsOf c) (strideOf c) words hsm (words.length + 1) 0 ws hws

/-- Witness for `token_split_reconstructs`: `child_max_tokens = 4` gives a
3-word window over a 5-word parent. -/
theorem token_split_reconstructs_witness :
    1 ≤ maxWordsOf 4 ∧
    ∃ ws, token_split 4 ([0, 1, 2, 3, 4] : List Nat) = some ws ∧
      glue (strideOf 4) ws = [0, 1, 2, 3, 4] :=
  ⟨by decide, token_split_reconstructs 4 [0, 1, 2, 3, 4] (by decide)⟩

/-- C3: the claim that the window loop terminates for every
`child_max_tokens > 0` is contradicted by the code.  For the validated
configuration `parent_max_tokens = 2`, `child_max_tokens = 1` the window is
`int(1 * 0.75) = 0` words wide, the stride is `0`, and on any text of at
least one word the `while` loop of `_token_split` never advances: no amount
of fuel finishes it (and each iteration appends an empty, zero-length
window).  The spec itself flags this as a latent bug whose intent is
termination, so the code, not the claim, is wrong. -/
theorem token_split_nonterminating_child_max_one :
    validConfig ⟨2, 1, 0⟩ ∧ maxWordsOf 1 = 0 ∧ strideOf 1 = 0 ∧
    token_split 1 ([0, 1] : List Nat) = none ∧
    ∀ fuel, splitLoop 0 0 ([0, 1] : List Nat) 0 fuel = none := by
  refine ⟨by decide, rfl, rfl, by decide, ?_⟩
  intro fuel
  induction fuel with
  | zero => rfl
  | succ f ih => simp [splitLoop, ih]

/-- C7: no window `_token_split` returns holds more than
`int(child_max_tokens * 0.75)` words, for any configuration and any parent
text. -/
theorem token_split_window_bound (c : Nat) (words : List α) (ws : List (List α))
    (h : token_split c words = some ws) :
    ∀ w ∈ ws, w.length ≤ maxWordsOf c := by
  by_cases hle : words.length ≤ maxWordsOf c
  · simp only [token_split, if_pos hle] at h
    obtain rfl : [words] = ws := Option.some.inj h
    intro w hw
    obtain rfl : w = words := by simpa using hw
    exact hle
  · simp only [token_split, if_neg hle] at h
    exact splitLoop_window_le (maxWordsOf c) (strideOf c) words (words.length + 1) 0 ws h

/-- Witness for `token_split_window_bound` on a split that produces two
windows. -/
theorem token_split_window_bound_witness :
    token_split 4 ([0, 1, 2, 3, 4] : List Nat) = some [[0, 1, 2], [3, 4]] ∧
    ([0, 1, 2] : List Nat).length ≤ maxWordsOf 4 :=
  ⟨by decide,
    token_split_window_bound 4 [0, 1, 2, 3, 4] [[0, 1, 2], [3, 4]] (by decide)
      [0, 1, 2] (by decide)⟩

/-! ## Query expander — gateway/services/rag/query_rewriter.py -/

/-- `t` occurs at the start of `s` (character lists). -/
def leadsChars : List Char → List Char → Bool
  | [], _ => true
  | _ :: _, [] => false
  | a :: t, b :: s => a = b && leadsChars t s

/-- `t` occurs somewhere inside `s`: the substring test behind Python's
`t in s` on strings. -/
def occursIn (t : List Char) : List Char → Bool
  | [] => leadsChars t []
  | c :: s => leadsChars t (c :: s) || occursIn t s

/-- Python's `term in query_lower` membership test on strings. -/
def pyIn (t s : String) : Bool := occursIn t.data s.data

/-- `query.lower()`: character-wise lowercasing.  `Char.toLower` agrees
with Python's `str.lower` on ASCII, which covers every domain term in the
mappings below. -/
def pyLower (s : String) : String := ⟨s.data.map Char.toLower⟩

/-- `FINANCIAL_EXPANSIONS` (query_rewriter.py lines 19-40), a dict with
pairwise-distinct keys kept in insertion order. -/
def FINANCIAL_EXPANSIONS : List (String × String) :=
  [("revenue", "revenue total revenues consolidated statements of operations"),
   ("profit", "net income loss profit earnings consolidated statements"),
   ("loss", "net income loss earnings consolidated statements of operations"),
   ("earnings", "net income loss earnings per share EPS diluted"),
   ("sales", "revenue total revenues net sales"),
   ("costs", "costs expenses operating expenses cost of revenue"),
   ("expenses", "operating expenses costs cost of revenue selling general administrative"),
   ("cash", "cash equivalents liquidity cash flows operations"),
   ("debt", "long-term debt borrowings credit facility notes payable"),
   ("assets", "total assets consolidated balance sheet"),
   ("liabilities", "total liabilities consolidated balance sheet"),
   ("employees", "headcount full-time employees workforce"),
   ("growth", "increase decrease year over year percentage change"),
   ("risk", "risk factors uncertainties forward-looking statements"),
   ("segment", "segment revenue operating income business segment results"),
   ("tax", "income tax provision benefit effective tax rate"),
   ("shares", "common stock shares outstanding diluted weighted average"),
   ("dividend", "dividends distributions stockholders equity"),
   ("acquisition", "business combinations acquisitions purchase price allocation"),
   ("guidance", "outlook forward-looking statements expectations")]

/-- `LEGAL_EXPANSIONS` (query_rewriter.py lines 42-53). -/
def LEGAL_EXPANSIONS : List (String × String) :=
  [("terminate", "termination clause notice period right to terminate"),
   ("termination", "termination clause notice period written notice"),
   ("notice", "notice period written notice days termination"),
   ("rent", "monthly rent payment due date rental amount"),
   ("deposit", "security deposit return conditions deductions"),
   ("repair", "maintenance repair responsibility landlord tenant"),
   ("late", "late fee penalty grace period overdue payment"),
   ("lease", "lease agreement term commencement expiration"),
   ("liability", "indemnification liability limitation damages"),
   ("breach", "breach default cure period remedies")]

/-- The iteration order of `{**FINANCIAL_EXPANSIONS, **LEGAL_EXPANSIONS}`:
because the two key sets are disjoint (`mergedExpansions_keys_nodup`), the
merged dict iterates the financial pairs in insertion order followed by the
legal pairs in insertion order. -/
def mergedExpansions : List (String × String) :=
  FINANCIAL_EXPANSIONS ++ LEGAL_EXPANSIONS

/-- `rewrite_query` (query_rewriter.py lines 60-85): lowercase the query,
collect the expansion of every term occurring in it as a substring, and if
any matched return the query, a newline, and the space-joined expansions. -/
def rewrite_query (query : String) : String :=
  let query_lower := pyLower query
  let expansions :=
    (mergedExpansions.filter (fun te => pyIn te.1 query_lower)).map Prod.snd
  if expansions = [] then query
  else query ++ "\n" ++ " ".intercalate expansions

/-- `rewrite_for_logging` (query_rewriter.py lines 88-102): same scan, also
returning the matched term keys. -/
def rewrite_for_logging (query : String) : String × List String :=
  let query_lower := pyLower query
  let hits := mergedExpansions.filter (fun te => pyIn te.1 query_lower)
  if hits.map Prod.snd = [] then (query, [])
  else (query ++ "\n" ++ " ".intercalate (hits.map Prod.snd), hits.map Prod.fst)

/-! ## Claim theorems for the query expander -/

/-- C6: on a query matching at least one term, `rewrite_query` returns the
original query, a newline, and the matched expansion phrases space-joined,
iterating the merged mapping financial-first then legal, each in insertion
order; the merged dict's keys are pairwise distinct, so one term never
contributes its phrase twice; on a query matching no term, the query comes
back unchanged. -/
theorem rewrite_query_matched_format (query : String) :
    mergedExpansions = FINANCIAL_EXPANSIONS ++ LEGAL_EXPANSIONS ∧
    (mergedExpansions.map Prod.fst).Nodup ∧
    (∀ t : String,
      ((mergedExpansions.filter
        (fun te => pyIn te.1 (pyLower query))).map Prod.fst).count t ≤ 1) ∧
    rewrite_query query =
      (if mergedExpansions.filter (fun te => pyIn te.1 (pyLower query)) = [] then
        query
      else
        query ++ "\n" ++ " ".intercalate
          ((mergedExpansions.filter
            (fun te => pyIn te.1 (pyLower query))).map Prod.snd)) := by
  have hnd : (mergedExpansions.map Prod.fst).Nodup := by decide
  refine ⟨rfl, hnd, ?_, ?_⟩
  · intro t
    have hsub : ((mergedExpansions.filter
        (fun te => pyIn te.1 (pyLower query))).map Prod.fst).Sublist
          (mergedExpansions.map Prod.fst) :=
      (List.filter_sublist _).map Prod.fst
    exact List.nodup_iff_count_le_one.1 (hnd.sublist hsub) t
  · by_cases hmt : mergedExpansions.filter (fun te => pyIn te.1 (pyLower query)) = []
    · simp [rewrite_query, hmt]
    · rw [if_neg hmt]
      have hmap : (mergedExpansions.filter
          (fun te => pyIn te.1 (pyLower query))).map Prod.snd ≠ [] := by
        simpa using hmt
      simp [rewrite_query, hmap]

/-- C9: term matching is by case-insensitive substring, not whole word.
The single-word query `different` (no space, not itself a term) contains
the legal term `rent` inside a larger word; `rewrite_query` nevertheless
expands it and `rewrite_for_logging` reports `rent` as matched. -/
theorem rewrite_matches_inside_larger_word :
    pyIn "rent" (pyLower "different") = true ∧
    ("different".data.contains ' ') = false ∧
    "different" ≠ "rent" ∧
    rewrite_query "different" =
      "different" ++ "\n" ++ "monthly rent payment due date rental amount" ∧
    (rewrite_for_logging "different").2 = ["rent"] := by
  decide

/-! ## Retriever — gateway/services/rag/retriever.py -/

/-- Python's truthiness of an optional string: `None` and the empty string
are falsy. -/
def pyTruthy : Option String → Bool
  | none => false
  | some s => s ≠ ""

/-- A search result dict as the Retriever consumes it: the payload keys the
code reads, each optional since `dict.get` tolerates absence.  `score` is
carried opaquely (the Retriever never inspects it beyond logging). -/
structure RRecord where
  score : Int
  text : Option String := none
  child_text : Option String := none
  parent_id : Option String := none
  parent_text : Option String := none
deriving DecidableEq

/-- `r.get("text", "")` (retriever.py lines 66-67). -/
def pyGetText (r : RRecord) : String := r.text.getD ""

/-- The dict built at retriever.py lines 64-68:
`{**r, "text": parent_text if parent_text else r.get("text", ""),
"child_text": r.get("text", "")}`. -/
def expandRecord (r : RRecord) : RRecord :=
  { r with
    text := some (if pyTruthy r.parent_text then r.parent_text.getD "" else pyGetText r),
    child_text := some (pyGetText r) }

/-- The `for r in results` loop of `_expand_to_parents` (retriever.py lines
55-68) with its `seen_parents` set: a truthy `parent_id` already seen is
skipped (`continue`), a truthy unseen one is recorded, falsy parent ids are
neither deduplicated nor recorded. -/
def expandGo (seen : List String) : List RRecord → List RRecord
  | [] => []
  | r :: rest =>
    match r.parent_id with
    | some s =>
      if s = "" then expandRecord r :: expandGo seen rest
      else if s ∈ seen then expandGo seen rest
      else expandRecord r :: expandGo (s :: seen) rest
    | none => expandRecord r :: expandGo seen rest

/-- `Retriever._expand_to_parents` (retriever.py lines 51-70). -/
def expand_to_parents (results : List RRecord) : List RRecord :=
  expandGo [] results

/-- The post-search logic of `Retriever.retrieve` (retriever.py lines
40-49): an empty search result returns `[]`, otherwise the results are
parent-expanded when `use_parent_context` is set and returned as-is when
not. -/
def retrieve (use_parent_context : Bool) (results : List RRecord) : List RRecord :=
  if results.isEmpty then []
  else if use_parent_context then expand_to_parents results
  else results

/-- `Retriever.retrieve` end to end (retriever.py lines 25-49): the query is
rewritten (`rewrite_for_logging`), its expansion is embedded and searched —
embedding plus index round trip abstracted as `searchFn`, which also
receives the pass-through `document_id` scope — and the post-search logic
runs on what the index returned. -/
def retrieve_full (searchFn : String → Option String → List RRecord)
    (use_parent_context : Bool) (query : String)
    (document_id : Option String) : List RRecord :=
  retrieve use_parent_context (searchFn (rewrite_for_logging query).1 document_id)

/-- `r.get("parent_id") == some p`: the record carries parent id `p`. -/
def hasPid (p : String) (r : RRecord) : Bool := r.parent_id == some p

/-! ## Vector store — gateway/services/rag/vector_store.py -/

/-- A point stored in the collection: its `document_id` payload field (the
only field `search` filters on) plus an opaque remainder. -/
structure StoredPoint where
  document_id : String
  payloadTag : Nat
deriving DecidableEq

/-- The filter construction of `VectorStore.search` (vector_store.py lines
43-47): `query_filter` stays `None` unless `document_id` is truthy, in which
case it is an exact match on the `document_id` payload field. -/
def searchFilter (document_id : Option String) : Option String :=
  match document_id with
  | some s => if s = "" then none else some s
  | none => none

/-- `VectorStore.search` restricted to its filtering behaviour.  The index
itself is an external collaborator; per the spec's interface contract the
filter acts as an exact-match predicate on the `document_id` payload field,
so the candidate set the index ranks is the matching subset of the stored
points (ranking and `top_k` truncation are orthogonal to the filter and not
modelled). -/
def search (points : List StoredPoint) (document_id : Option String) :
    List StoredPoint :=
  match searchFilter document_id with
  | none => points
  | some d => points.filter (fun pt => pt.document_id == d)

/-! ## Retriever lemmas -/

/-- Parent expansion keeps the parent reference of a record unchanged. -/
theorem hasPid_expandRecord (p : String) (r : RRecord) :
    hasPid p (expandRecord r) = hasPid p r := rfl

/-- The expansion loop returns the per-record transformation of some
subsequence of its input: surviving records keep their input order. -/
theorem expandGo_sublist (seen : List String) (l : List RRecord) :
    ∃ t : List RRecord, List.Sublist t l ∧ expandGo seen l = t.map expandRecord := by
  induction l generalizing seen with
  | nil => exact ⟨[], List.Sublist.refl [], rfl⟩
  | cons r rest ih =>
    cases hp : r.parent_id with
    | none =>
      obtain ⟨t, hs, he⟩ := ih seen
      exact ⟨r :: t, List.Sublist.cons₂ r hs, by simp [expandGo, hp, he]⟩
    | some s =>
      by_cases hse : s = ""
      · obtain ⟨t, hs, he⟩ := ih seen
        exact ⟨r :: t, List.Sublist.cons₂ r hs, by simp [expandGo, hp, hse, he]⟩
      · by_cases hmem : s ∈ seen
        · obtain ⟨t, hs, he⟩ := ih seen
          exact ⟨t, List.Sublist.cons r hs, by simp [expandGo, hp, hse, hmem, he]⟩
        · obtain ⟨t, hs, he⟩ := ih (s :: seen)
          exact ⟨r :: t, List.Sublist.cons₂ r hs, by simp [expandGo, hp, hse, hmem, he]⟩

/-- Dedup counting: after the loop, records carrying a fixed non-empty
parent id `p` appear exactly once if any arrived (and never if `p` was
already in the seen set). -/
theorem expandGo_countP (p : String) (hp : p ≠ "") :
    ∀ (l : List RRecord) (seen : List String),
      (expandGo seen l).countP (hasPid p) =
        if p ∈ seen then 0 else min 1 (l.countP (hasPid p)) := by
  intro l
  induction l with
  | nil => intro seen; simp [expandGo]
  | cons r rest ih =>
    intro seen
    cases hpid : r.parent_id with
    | none =>
      have hh : hasPid p r = false := by simp [hasPid, hpid]
      simp [expandGo, hpid, List.countP_cons, hh, hasPid_expandRecord, ih seen]
    | some s =>
      by_cases hse : s = ""
      · subst hse
        have hh : hasPid p r = false := by
          simp [hasPid, hpid]
          exact fun h => hp h.symm
        simp [expandGo, hpid, List.countP_cons, hh, hasPid_expandRecord, ih seen]
      · by_cases hmem : s ∈ seen
        · have hLHS : expandGo seen (r :: rest) = expandGo seen rest := by
            simp [expandGo, hpid, hse, hmem]
          rw [hLHS, ih seen]
          by_cases hps : p ∈ seen
          · simp [hps]
          · have hnp : hasPid p r = false := by
              simp [hasPid, hpid]
              intro h
              exact hps (h ▸ hmem)
            simp [hps, List.countP_cons, hnp]
        · have hLHS : expandGo seen (r :: rest) =
              expandRecord r :: expandGo (s :: seen) rest := by
            simp [expandGo, hpid, hse, hmem]
          rw [hLHS, List.countP_cons, hasPid_expandRecord, ih (s :: seen)]
          by_cases hps : p = s
          · subst hps
            have hhit : hasPid p r = true := by simp [hasPid, hpid]
            simp [hmem, hhit, List.countP_cons]
          · have hnp : hasPid p r = false := by
              simp [hasPid, hpid]
              exact fun h => hps h.symm
            by_cases hps' : p ∈ seen <;>
              simp [hps', hps, hnp, List.countP_cons]

/-- The record surviving for a non-empty parent id not yet seen is the
transformation of the first input record carrying that id. -/
theorem expandGo_find (p : String) (hp : p ≠ "") :
    ∀ (l : List RRecord) (seen : List String), p ∉ seen →
      (expandGo seen l).find? (hasPid p) = (l.find? (hasPid p)).map expandRecord := by
  intro l
  induction l with
  | nil => intro seen _; simp [expandGo]
  | cons r rest ih =>
    intro seen hseen
    cases hpid : r.parent_id with
    | none =>
      have hh : hasPid p r = false := by simp [hasPid, hpid]
      rw [show expandGo seen (r :: rest) = expandRecord r :: expandGo seen rest by
          simp [expandGo, hpid],
        List.find?_cons_of_neg _ (by simp [hasPid_expandRecord, hh]),
        List.find?_cons_of_neg _ (by simp [hh]), ih seen hseen]
    | some s =>
      by_cases hse : s = ""
      · subst hse
        have hh : hasPid p r = false := by
          simp [hasPid, hpid]
          exact fun h => hp h.symm
        rw [show expandGo seen (r :: rest) = expandRecord r :: expandGo seen rest by
            simp [expandGo, hpid],
          List.find?_cons_of_neg _ (by simp [hasPid_expandRecord, hh]),
          List.find?_cons_of_neg _ (by simp [hh]), ih seen hseen]
      · by_cases hmem : s ∈ seen
        · have hnp : hasPid p r = false := by
            simp [hasPid, hpid]
            intro h
            exact hseen (h ▸ hmem)
          rw [show expandGo seen (r :: rest) = expandGo seen rest by
              simp [expandGo, hpid, hse, hmem],
            List.find?_cons_of_neg _ (by simp [hnp]), ih seen hseen]
        · by_cases hps : p = s
          · subst hps
            have hhit : hasPid p r = true := by simp [hasPid, hpid]
            rw [show expandGo seen (r :: rest) =
                  expandRecord r :: expandGo (p :: seen) rest by
                simp [expandGo, hpid, hse, hmem],
              List.find?_cons_of_pos _ (by rw [hasPid_expandRecord]; exact hhit),
              List.find?_cons_of_pos _ hhit]
            rfl
          · have hnp : hasPid p r = false := by
              simp [hasPid, hpid]
              exact fun h => hps h.symm
            rw [show expandGo seen (r :: rest) =
                  expandRecord r :: expandGo (s :: seen) rest by
                simp [expandGo, hpid, hse, hmem],
              List.find?_cons_of_neg _ (by simp [hasPid_expandRecord, hnp]),
              List.find?_cons_of_neg _ (by simp [hnp]),
              ih (s :: seen) (by simp [List.mem_cons, hps, hseen])]

/-! ## Claim theorems for the retriever and the vector store -/

/-- C4: with parent expansion enabled, when two or more ranked results carry
the same (non-empty) `parent_id`, `retrieve` keeps exactly one entry for
that parent — the transformation of the first, i.e. highest-ranked,
occurrence — drops the later duplicates, and the surviving entries are the
per-record transformation of a subsequence of the input, so the
similarity-score ordering of the ranked list is preserved. -/
theorem retrieve_dedups_parent (results : List RRecord) (p : String)
    (hp : p ≠ "") (h2 : 2 ≤ results.countP (hasPid p)) :
    (retrieve true results).countP (hasPid p) = 1 ∧
    (retrieve true results).find? (hasPid p) =
      (results.find? (hasPid p)).map expandRecord ∧
    ∃ t : List RRecord, List.Sublist t results ∧
      retrieve true results = t.map expandRecord := by
  have hne : results.isEmpty = false := by
    cases results with
    | nil => simp at h2
    | cons a l => rfl
  have hret : retrieve true results = expand_to_parents results := by
    simp [retrieve, hne]
  rw [hret]
  refine ⟨?_, ?_, ?_⟩
  · rw [expand_to_parents, expandGo_countP p hp results []]
    simp only [List.not_mem_nil, if_false]
    omega
  · rw [expand_to_parents, expandGo_find p hp results [] (List.not_mem_nil p)]
  · exact expandGo_sublist [] results

/-- Witness for `retrieve_dedups_parent`: two results sharing parent `P`. -/
theorem retrieve_dedups_parent_witness :
    ("P" : String) ≠ "" ∧
    2 ≤ ([⟨10, some "a", none, some "P", some "PT"⟩,
          ⟨5, some "b", none, some "P", some "PT"⟩] :
        List RRecord).countP (hasPid "P") ∧
    ((retrieve true [⟨10, some "a", none, some "P", some "PT"⟩,
          ⟨5, some "b", none, some "P", some "PT"⟩]).countP (hasPid "P") = 1 ∧
      (retrieve true [⟨10, some "a", none, some "P", some "PT"⟩,
          ⟨5, some "b", none, some "P", some "PT"⟩]).find? (hasPid "P") =
        (([⟨10, some "a", none, some "P", some "PT"⟩,
          ⟨5, some "b", none, some "P", some "PT"⟩] :
            List RRecord).find? (hasPid "P")).map expandRecord ∧
      ∃ t : List RRecord,
        List.Sublist t [⟨10, some "a", none, some "P", some "PT"⟩,
          ⟨5, some "b", none, some "P", some "PT"⟩] ∧
        retrieve true [⟨10, some "a", none, some "P", some "PT"⟩,
          ⟨5, some "b", none, some "P", some "PT"⟩] = t.map expandRecord) :=
  ⟨by decide, by decide,
    retrieve_dedups_parent
      [⟨10, some "a", none, some "P", some "PT"⟩,
       ⟨5, some "b", none, some "P", some "PT"⟩] "P" (by decide) (by decide)⟩

/-- C5: with expansion enabled, every surviving entry is the transformation
of an input record; under the chunker invariant that a record carrying a
parent id also carries the parent text, an entry whose record carries a
parent id shows the parent text as `text`, the original child excerpt is
retained as `child_text`, and a record with no parent reference keeps its
own text. -/
theorem retrieve_expands_to_parent_text (results : List RRecord)
    (hinv : ∀ r ∈ results, pyTruthy r.parent_id = true → pyTruthy r.parent_text = true) :
    ∀ o ∈ retrieve true results, ∃ r ∈ results,
      o = expandRecord r ∧
      o.child_text = some (pyGetText r) ∧
      (pyTruthy r.parent_id = true → o.text = some (r.parent_text.getD "")) ∧
      (pyTruthy r.parent_id = false → pyTruthy r.parent_text = false →
        o.text = some (pyGetText r)) := by
  intro o ho
  have hmem : o ∈ expand_to_parents results := by
    cases results with
    | nil => exact absurd ho (by simp [retrieve])
    | cons a l => simpa [retrieve] using ho
  obtain ⟨t, hsub, heq⟩ := expandGo_sublist [] results
  rw [expand_to_parents, heq] at hmem
  obtain ⟨r, hrt, hro⟩ := List.mem_map.1 hmem
  have hrres : r ∈ results := hsub.subset hrt
  refine ⟨r, hrres, hro.symm, ?_, ?_, ?_⟩
  · rw [← hro]; rfl
  · intro hid
    rw [← hro]
    simp [expandRecord, hinv r hrres hid]
  · intro _ hpt
    rw [← hro]
    simp [expandRecord, hpt]

/-- Witness for `retrieve_expands_to_parent_text`: one record with a parent
reference and one without. -/
theorem retrieve_expands_to_parent_text_witness :
    (∀ r ∈ ([⟨7, some "child", none, some "P", some "parent full"⟩,
             ⟨3, some "solo", none, none, none⟩] : List RRecord),
      pyTruthy r.parent_id = true → pyTruthy r.parent_text = true) ∧
    ∀ o ∈ retrieve true [⟨7, some "child", none, some "P", some "parent full"⟩,
             ⟨3, some "solo", none, none, none⟩], ∃ r ∈
        ([⟨7, some "child", none, some "P", some "parent full"⟩,
          ⟨3, some "solo", none, none, none⟩] : List RRecord),
      o = expandRecord r ∧
      o.child_text = some (pyGetText r) ∧
      (pyTruthy r.parent_id = true → o.text = some (r.parent_text.getD "")) ∧
      (pyTruthy r.parent_id = false → pyTruthy r.parent_text = false →
        o.text = some (pyGetText r)) :=
  ⟨by decide,
    retrieve_expands_to_parent_text
      [⟨7, some "child", none, some "P", some "parent full"⟩,
       ⟨3, some "solo", none, none, none⟩] (by decide)⟩

/-- C8: when the index search comes back with zero results, `retrieve`
returns the empty list — a plain value, not a raised error — for any query,
scope, and parent-context setting. -/
theorem retrieve_empty_search_returns_nil
    (searchFn : String → Option String → List RRecord) (b : Bool)
    (query : String) (document_id : Option String)
    (h : searchFn (rewrite_for_logging query).1 document_id = []) :
    retrieve_full searchFn b query document_id = [] := by
  simp [retrieve_full, h, retrieve]

/-- Witness for `retrieve_empty_search_returns_nil` against an index with
nothing to return. -/
theorem retrieve_empty_search_returns_nil_witness :
    (fun (_ : String) (_ : Option String) => ([] : List RRecord))
        (rewrite_for_logging "hi how are you").1 none = [] ∧
    retrieve_full (fun _ _ => []) true "hi how are you" none = [] :=
  ⟨rfl, retrieve_empty_search_returns_nil (fun _ _ => []) true "hi how are you" none rfl⟩

/-- C10: `VectorStore.search` builds no filter for a falsy `document_id`,
so the empty-string scope searches the whole collection exactly like no
scope at all, while a non-empty scope filters to exact matches on the
`document_id` payload field. -/
theorem search_empty_scope_unfiltered (points : List StoredPoint) :
    search points (some "") = points ∧
    search points (some "") = search points none ∧
    ∀ d : String, d ≠ "" →
      search points (some d) = points.filter (fun pt => pt.document_id == d) := by
  refine ⟨rfl, rfl, ?_⟩
  intro d hd
  simp [search, searchFilter, hd]

/-- Witness for `search_empty_scope_unfiltered` on a two-document
collection. -/
theorem search_empty_scope_unfiltered_witness :
    search [⟨"a", 0⟩, ⟨"x", 1⟩] (some "") = [⟨"a", 0⟩, ⟨"x", 1⟩] ∧
    ("x" : String) ≠ "" ∧
    search [⟨"a", 0⟩, ⟨"x", 1⟩] (some "x") =
      ([⟨"a", 0⟩, ⟨"x", 1⟩] : List StoredPoint).filter
        (fun pt => pt.document_id == "x") :=
  ⟨(search_empty_scope_unfiltered [⟨"a", 0⟩, ⟨"x", 1⟩]).1, by decide,
    (search_empty_scope_unfiltered [⟨"a", 0⟩, ⟨"x", 1⟩]).2.2 "x" (by decide)⟩

end EdgeAI
